import Mathlib

/-!
Verification of the OOM-notifier detection pipeline (Go sources under
`internal/monitor`: `kmsg.go`, `process.go`).  The Go code is shallowly
embedded: strings become `List Char`, machine integers become `Nat`/`Int`
with explicit wrapping where Go would overflow, the hashicorp LRU cache
becomes an explicit recency-ordered association list, and the channel-based
detection loop becomes a pure fold over the drained entries.
-/

namespace OOMNotifier

/-! ### Character classes used by the Go code (ASCII fragment) -/

/-- Decimal digit test, as used by `strconv` parsing (`'0' ≤ c ≤ '9'`). -/
def isDigitChar (c : Char) : Bool :=
  48 ≤ c.toNat && c.toNat ≤ 57

/-- Numeric value of a decimal digit character. -/
def digitVal (c : Char) : Nat := c.toNat - 48

/-- The decimal digit character for `d < 10` (mirrors `strconv` formatting). -/
def digitChar : Nat → Char
  | 0 => '0' | 1 => '1' | 2 => '2' | 3 => '3' | 4 => '4'
  | 5 => '5' | 6 => '6' | 7 => '7' | 8 => '8' | _ => '9'

/-- Worker for `natDigits`, structurally recursive on a fuel argument so
that the kernel can evaluate it; the fuel is always sufficient because the
remaining value shrinks by a factor of ten each step. -/
def natDigitsAux : Nat → Nat → List Char
  | 0, _ => []
  | fuel + 1, n =>
    if n < 10 then [digitChar n]
    else natDigitsAux fuel (n / 10) ++ [digitChar (n % 10)]

/-- Decimal rendering of a natural number, most-significant digit first
(the digit list produced by `strconv.Itoa` / `FormatUint` for `n ≥ 0`). -/
def natDigits (n : Nat) : List Char := natDigitsAux (n + 1) n

/-- Decimal rendering of a Go `int` (`strconv.Itoa`): a minus sign before
the digits of the absolute value for negative numbers. -/
def intDigits (i : Int) : List Char :=
  if i < 0 then '-' :: natDigits i.natAbs else natDigits i.natAbs

/-- Value of a digit string read most-significant first
(the accumulator loop inside `strconv.ParseUint`). -/
def valOfDigits (l : List Char) : Nat :=
  l.foldl (fun acc c => acc * 10 + digitVal c) 0

/-- `strconv.ParseUint(s, 10, 64)`: succeeds exactly on nonempty all-digit
strings whose value fits in 64 bits (no sign accepted), returning that
value; every other input is a syntax or range error. -/
def parseUint64 (l : List Char) : Option Nat :=
  if l ≠ [] ∧ l.all isDigitChar ∧ valOfDigits l < 2 ^ 64 then
    some (valOfDigits l)
  else none

/-- `strconv.Atoi` = `strconv.ParseInt(s, 10, 0)` on a 64-bit platform:
an optional `+`/`-` sign, then a nonempty digit run; the value must lie in
`[-2^63, 2^63)` (negative cutoff is `2^63`, positive cutoff `2^63 - 1`). -/
def atoi (l : List Char) : Option Int :=
  let neg : Bool := l.headD ' ' = '-'
  let digits := if l.headD ' ' = '-' ∨ l.headD ' ' = '+' then l.tail else l
  if digits ≠ [] ∧ digits.all isDigitChar then
    let v := valOfDigits digits
    if neg then
      if v ≤ 2 ^ 63 then some (-(v : Int)) else none
    else
      if v < 2 ^ 63 then some (v : Int) else none
  else none

/-! ### Splitting primitives (from `strings`) -/

/-- `strings.SplitN(line, ";", 2)`: `some (before, after)` splitting at the
first `;`, `none` when the line has no `;` (in which case the Go call
returns a single-element slice and `parseKmsgLine` rejects the line). -/
def splitOnceSemi : List Char → Option (List Char × List Char)
  | [] => none
  | c :: rest =>
    if c = ';' then some ([], rest)
    else
      match splitOnceSemi rest with
      | none => none
      | some (a, b) => some (c :: a, b)

/-- `strings.Split(s, sep)` for a one-character separator: every maximal
separator-free segment, in order (empty segments included). -/
def splitOn (sep : Char) : List Char → List (List Char)
  | [] => [[]]
  | c :: rest =>
    if c = sep then [] :: splitOn sep rest
    else
      match splitOn sep rest with
      | [] => [[c]]
      | a :: as => (c :: a) :: as

/-- `unicode.IsSpace` restricted to the ASCII range, as relevant for
`/proc/stat` content (`strings.Fields` separators). -/
def isSpaceChar (c : Char) : Bool :=
  c = ' ' || c = '\t' || c = '\n' || c = '\r' || c = '\x0b' || c = '\x0c'

/-- Worker for `fields`: accumulates the current word in reverse. -/
def fieldsAux : List Char → List Char → List (List Char)
  | [], acc => if acc = [] then [] else [acc.reverse]
  | c :: rest, acc =>
    if isSpaceChar c then
      if acc = [] then fieldsAux rest [] else acc.reverse :: fieldsAux rest []
    else fieldsAux rest (c :: acc)

/-- `strings.Fields`: the maximal whitespace-free words of a line, in
order, with no empty words. -/
def fields (l : List Char) : List (List Char) := fieldsAux l []

/-! ### The kmsg entry and line parser (`kmsg.go`) -/

/-- `KmsgEntry` from `kmsg.go`: priority is a Go `int`, sequence number and
timestamp are `uint64` (microseconds since boot for the timestamp). -/
structure KmsgEntry where
  priority : Int
  sequenceNum : Nat
  timestamp : Nat
  message : List Char
  deriving Repr, DecidableEq

/-- `parseKmsgLine` from `kmsg.go`: split at the first `;`; split the
metadata on `,` and require at least three fields; parse field 0 with
`Atoi`, field 1 with `ParseUint`, and the part of field 2 before any
further `,` with `ParseUint`; the message is everything after the `;`. -/
def parseKmsgLine (line : List Char) : Option KmsgEntry := do
  let (meta, msg) ← splitOnceSemi line
  let metadata := splitOn ',' meta
  if h : 3 ≤ metadata.length then
    let priority ← atoi (metadata.get ⟨0, by omega⟩)
    let sequence ← parseUint64 (metadata.get ⟨1, by omega⟩)
    let timestampStr := (splitOn ',' (metadata.get ⟨2, by omega⟩)).headD []
    let timestamp ← parseUint64 timestampStr
    pure ⟨priority, sequence, timestamp, msg⟩
  else none

/-! ### The OOM classifier (`kmsg.go`: `IsOOMMessage`, `ExtractPID`) -/

/-- ASCII lower-casing of one character, the fragment of `strings.ToLower`
and of the regexp's `(?i)` folding relevant to the ASCII patterns used. -/
def lowerChar (c : Char) : Char :=
  if 'A' ≤ c ∧ c ≤ 'Z' then Char.ofNat (c.toNat + 32) else c

/-- The OOM-kill pattern: regexp `(?i)out of memory:` (unanchored). -/
def oomPattern : List Char := "out of memory:".toList

/-- Unanchored substring search: does `pat` occur contiguously anywhere in
the subject?  (The matching performed by an unanchored literal regexp.) -/
def containsSeq (pat : List Char) : List Char → Bool
  | [] => pat.isEmpty
  | c :: rest => pat.isPrefixOf (c :: rest) || containsSeq pat rest

/-- `IsOOMMessage`: the message matches `(?i)out of memory:`, i.e. its
lower-cased form contains the pattern as a contiguous substring. -/
def isOOMMessage (msg : List Char) : Bool :=
  containsSeq oomPattern (msg.map lowerChar)

/-- RE2 `\b` word characters (`[0-9A-Za-z_]`, ASCII only). -/
def isWordChar (c : Char) : Bool :=
  isDigitChar c || (97 ≤ c.toNat && c.toNat ≤ 122) ||
    (65 ≤ c.toNat && c.toNat ≤ 90) || c = '_'

/-- The literal part of the PID pattern `\bkilled process (\d+)\b`. -/
def killedPattern : List Char := "killed process ".toList

/-- Attempt to match `\bkilled process (\d+)\b` starting at the current
position, given the character just before it (`none` at the start of the
string).  The captured group is the maximal digit run after the literal;
shorter runs can never satisfy the trailing `\b` (a digit is a word
character), so the maximal run is exactly what the regexp engine yields. -/
def matchKilledAt (prev : Option Char) (l : List Char) : Option (List Char) :=
  let prevWord : Bool := match prev with | none => false | some c => isWordChar c
  if prevWord then none
  else if killedPattern.isPrefixOf l then
    let rest := l.drop killedPattern.length
    let digits := rest.takeWhile isDigitChar
    let after := rest.drop digits.length
    if digits ≠ [] ∧ (after = [] ∨ isWordChar (after.headD ' ') = false) then
      some digits
    else none
  else none

/-- Leftmost match of `\bkilled process (\d+)\b`: scan every start
position from the left, tracking the previous character for `\b`. -/
def findKilled : Option Char → List Char → Option (List Char)
  | _, [] => none
  | prev, c :: rest =>
    match matchKilledAt prev (c :: rest) with
    | some d => some d
    | none => findKilled (some c) rest

/-- `ExtractPID`: lower-case the message, find the first match of
`\bkilled process (\d+)\b`, and parse the captured digits with
`strconv.Atoi`; `none` when there is no match or the digits overflow. -/
def extractPID (message : List Char) : Option Int :=
  match findKilled none (message.map lowerChar) with
  | none => none
  | some digits => atoi digits

/-! ### The process-identity cache (`process.go` with hashicorp
`golang-lru/v2` semantics) -/

/-- The LRU cache `lru.Cache[int, string]`: a fixed capacity and the
entries in recency order, most-recently-used first.  Keys are Go `int`
PIDs, values are command-line strings. -/
structure LRUCache where
  cap : Nat
  entries : List (Int × List Char)
  deriving Repr, DecidableEq

/-- `Cache.Add(key, value)`: if the key is present, update its value and
move it to the front; otherwise insert at the front and, if the cache now
exceeds its capacity, evict the least-recently-used (last) entry. -/
def lruAdd (c : LRUCache) (k : Int) (v : List Char) : LRUCache :=
  if c.entries.any (fun e => e.1 == k) then
    ⟨c.cap, (k, v) :: c.entries.filter (fun e => !(e.1 == k))⟩
  else
    let grown := (k, v) :: c.entries
    ⟨c.cap, if c.cap < grown.length then grown.dropLast else grown⟩

/-- `Cache.Get(key)`: look the key up; on a hit, move the entry to the
front (mark it most-recently-used) and return its value. -/
def lruGet (c : LRUCache) (k : Int) : LRUCache × Option (List Char) :=
  match c.entries.find? (fun e => e.1 == k) with
  | none => (c, none)
  | some e => (⟨c.cap, (k, e.2) :: c.entries.filter (fun e' => !(e'.1 == k))⟩, some e.2)

/-- `ProcessCache.GetCommandLine`: `Get` on the LRU cache, returning the
empty string on a miss. -/
def getCommandLine (c : LRUCache) (pid : Int) : LRUCache × List Char :=
  match lruGet c pid with
  | (c', none) => (c', [])
  | (c', some v) => (c', v)

/-- `ProcessCache.Refresh`: `Add` every `(pid, cmdline)` pair discovered by
the process-table scan, in order.  The scan result is the `procs`
parameter; `Refresh` itself never removes an entry. -/
def refresh (c : LRUCache) (procs : List (Int × List Char)) : LRUCache :=
  procs.foldl (fun acc p => lruAdd acc p.1 p.2) c

/-! ### The monitor orchestrator (`kmsg.go`: `NewOOMMonitor`,
`getBootTime`, `createOOMEvent`, `Start`) -/

/-- Reinterpretation of a `uint64` quantity as a Go `int64`
(two's-complement wrap), used for `time.Duration(timestamp)`. -/
def toInt64 (n : Nat) : Int :=
  if n % 2 ^ 64 < 2 ^ 63 then ((n % 2 ^ 64 : Nat) : Int)
  else ((n % 2 ^ 64 : Nat) : Int) - 2 ^ 64

/-- The scan of `getBootTime` over the lines of `/proc/stat`: the first
line with prefix `"btime "` and at least two whitespace-separated fields
has its second field parsed as a 64-bit integer (a parse failure is
returned as an error, not skipped); a prefix-matching line with fewer than
two fields falls through to the remaining lines. -/
def findBtime : List (List Char) → Option Int
  | [] => none
  | line :: rest =>
    if ("btime ".toList).isPrefixOf line then
      match fields line with
      | _ :: f1 :: _ => atoi f1
      | _ => findBtime rest
    else findBtime rest

/-- `getBootTime`: split the `/proc/stat` content into lines and scan for
the `btime` field; the result is the boot time in Unix epoch seconds. -/
def getBootTime (statContent : List Char) : Option Int :=
  findBtime (splitOn '\n' statContent)

/-- The orchestrator state relevant to event construction: the startup
baseline (microseconds since boot, a `uint64`) and the discovered boot
time in Unix epoch nanoseconds, plus the best-effort host name and kernel
version strings. -/
structure OOMMonitor where
  startupTimestamp : Nat
  bootTimeNanos : Int
  hostname : List Char
  kernel : List Char
  deriving Repr, DecidableEq

/-- `NewOOMMonitor` (boot-time and baseline part): discover the boot time
from the `/proc/stat` content; on failure fall back to the current time;
the startup baseline is `uint64(time.Since(bootTime).Microseconds())`,
i.e. the elapsed nanoseconds divided by 1000 (truncated) and wrapped into
`uint64`.  Construction never fails on boot-time discovery failure. -/
def newOOMMonitor (statContent : List Char) (nowNanos : Int)
    (hostname kernel : List Char) : OOMMonitor :=
  let bootNanos : Int :=
    match getBootTime statContent with
    | some secs => secs * 1000000000
    | none => nowNanos
  let sinceMicros : Int := (nowNanos - bootNanos).tdiv 1000
  { startupTimestamp := (sinceMicros % (2 ^ 64 : Int)).toNat
    bootTimeNanos := bootNanos
    hostname := hostname
    kernel := kernel }

/-- `OOMEventData` from `kmsg.go`: the published event. -/
structure OOMEventData where
  cmdline : List Char
  pid : List Char
  hostname : List Char
  kernel : List Char
  time : Int
  deriving Repr, DecidableEq

/-- The wall-clock event time:
`bootTime.Add(time.Duration(timestamp) * time.Microsecond)` expressed as
`UnixNano() / int64(time.Millisecond)` (truncated `int64` division); the
`uint64` timestamp passes through Go's `time.Duration` (an `int64`). -/
def eventTimeMillis (bootTimeNanos : Int) (timestamp : Nat) : Int :=
  (bootTimeNanos + toInt64 (timestamp * 1000)).tdiv 1000000

/-- `createOOMEvent`: resolve the command line from the cache (the lookup
itself touches the LRU order); an empty result is replaced by the literal
placeholder `"<unknown process <pid>>"`; the event's time field is the
converted kernel timestamp. -/
def createOOMEvent (m : OOMMonitor) (c : LRUCache) (pid : Int) (timestamp : Nat) :
    LRUCache × OOMEventData :=
  let r := getCommandLine c pid
  let cmdline :=
    if r.2 = [] then
      ("<unknown process ".toList) ++ intDigits pid ++ (">".toList)
    else r.2
  (r.1, { cmdline := cmdline
          pid := intDigits pid
          hostname := m.hostname
          kernel := m.kernel
          time := eventTimeMillis m.bootTimeNanos timestamp })

/-- One iteration of the detection loop in `Start` for a drained entry:
skip non-OOM messages; skip OOM entries whose timestamp is strictly below
the startup baseline; skip entries whose PID cannot be extracted;
otherwise build the event (threading the cache state) and publish it. -/
def processEntry (m : OOMMonitor) (c : LRUCache) (e : KmsgEntry) :
    LRUCache × Option OOMEventData :=
  if isOOMMessage e.message then
    if e.timestamp < m.startupTimestamp then (c, none)
    else
      match extractPID e.message with
      | none => (c, none)
      | some pid =>
        let r := createOOMEvent m c pid e.timestamp
        (r.1, some r.2)
  else (c, none)

/-- The detection loop over one drained batch: process the entries in
order, collecting the published events. -/
def processEntries (m : OOMMonitor) (c : LRUCache) :
    List KmsgEntry → LRUCache × List OOMEventData
  | [] => (c, [])
  | e :: es =>
    let r := processEntry m c e
    let rest := processEntries m r.1 es
    (rest.1, r.2.toList ++ rest.2)

/-! ### Decimal rendering round-trip lemmas -/

theorem natDigitsAux_fuel {n f1 f2 : Nat} (h1 : n < f1) (h2 : n < f2) :
    natDigitsAux f1 n = natDigitsAux f2 n := by
  induction n using Nat.strong_induction_on generalizing f1 f2 with
  | _ n ih =>
    cases f1 with
    | zero => omega
    | succ k1 =>
      cases f2 with
      | zero => omega
      | succ k2 =>
        by_cases hn : n < 10
        · simp [natDigitsAux, hn]
        · have hd : n / 10 < n := Nat.div_lt_self (by omega) (by omega)
          simp only [natDigitsAux, if_neg hn]
          rw [@ih (n / 10) hd k1 k2 (by omega) (by omega)]

theorem natDigits_eq (n : Nat) :
    natDigits n
      = if n < 10 then [digitChar n]
        else natDigits (n / 10) ++ [digitChar (n % 10)] := by
  by_cases hn : n < 10
  · simp [natDigits, natDigitsAux, hn]
  · have hd : n / 10 < n := Nat.div_lt_self (by omega) (by omega)
    rw [if_neg hn,
      show natDigits (n / 10) = natDigitsAux (n / 10 + 1) (n / 10) from rfl,
      show natDigits n = natDigitsAux (n + 1) n from rfl]
    simp only [natDigitsAux, if_neg hn]
    rw [@natDigitsAux_fuel (n / 10) n (n / 10 + 1) (by omega) (by omega)]
    rfl

theorem digitVal_digitChar {d : Nat} (h : d < 10) : digitVal (digitChar d) = d := by
  interval_cases d <;> decide

theorem isDigitChar_digitChar {d : Nat} (h : d < 10) :
    isDigitChar (digitChar d) = true := by
  interval_cases d <;> decide

theorem natDigits_ne_nil (n : Nat) : natDigits n ≠ [] := by
  rw [natDigits_eq]
  split <;> simp

theorem natDigits_all_digit (n : Nat) : (natDigits n).all isDigitChar = true := by
  induction n using Nat.strong_induction_on with
  | _ n ih =>
    rw [natDigits_eq]
    split
    · next h => simp [isDigitChar_digitChar h]
    · next h =>
      rw [List.all_append]
      have h1 := ih (n / 10) (Nat.div_lt_self (by omega) (by omega))
      have h2 : n % 10 < 10 := Nat.mod_lt _ (by omega)
      simp [h1, isDigitChar_digitChar h2]

theorem mem_natDigits_digit {n : Nat} {c : Char} (h : c ∈ natDigits n) :
    isDigitChar c = true := by
  have := natDigits_all_digit n
  rw [List.all_eq_true] at this
  exact this c h

theorem valOfDigits_natDigits (n : Nat) : valOfDigits (natDigits n) = n := by
  induction n using Nat.strong_induction_on with
  | _ n ih =>
    rw [natDigits_eq]
    split
    · next h => simp [valOfDigits, digitVal_digitChar h]
    · next h =>
      have h1 := ih (n / 10) (Nat.div_lt_self (by omega) (by omega))
      have h2 : n % 10 < 10 := Nat.mod_lt _ (by omega)
      simp only [valOfDigits, List.foldl_append, List.foldl_cons, List.foldl_nil]
      rw [show List.foldl (fun acc c => acc * 10 + digitVal c) 0 (natDigits (n / 10))
            = valOfDigits (natDigits (n / 10)) from rfl, h1, digitVal_digitChar h2]
      omega

theorem parseUint64_natDigits {n : Nat} (h : n < 2 ^ 64) :
    parseUint64 (natDigits n) = some n := by
  simp only [parseUint64, valOfDigits_natDigits]
  rw [if_pos ⟨natDigits_ne_nil n, natDigits_all_digit n, h⟩]

theorem atoi_digit_list {l : List Char} (hne : l ≠ [])
    (hall : l.all isDigitChar = true) (hlt : valOfDigits l < 2 ^ 63) :
    atoi l = some ((valOfDigits l : Nat) : Int) := by
  cases l with
  | nil => exact absurd rfl hne
  | cons c rest =>
    have hc : isDigitChar c = true := by
      rw [List.all_cons, Bool.and_eq_true] at hall
      exact hall.1
    have hminus : ¬ c = '-' := by
      intro he; rw [he] at hc; exact absurd hc (by decide)
    have hplus : ¬ c = '+' := by
      intro he; rw [he] at hc; exact absurd hc (by decide)
    have hrest : rest.all isDigitChar = true := by
      rw [List.all_cons, Bool.and_eq_true] at hall
      exact hall.2
    have hval : valOfDigits (c :: rest)
        = List.foldl (fun acc c => acc * 10 + digitVal c) (digitVal c) rest := by
      simp [valOfDigits]
    rw [hval] at hlt
    simp [atoi, hminus, hplus, hc, hrest, hval]
    omega

theorem atoi_natDigits {n : Nat} (h : n < 2 ^ 63) :
    atoi (natDigits n) = some (n : Int) := by
  have := atoi_digit_list (natDigits_ne_nil n) (natDigits_all_digit n)
    (by rw [valOfDigits_natDigits]; exact h)
  rwa [valOfDigits_natDigits] at this

theorem atoi_intDigits {p : Int} (h1 : -(2 ^ 63) ≤ p) (h2 : p < 2 ^ 63) :
    atoi (intDigits p) = some p := by
  by_cases hp : p < 0
  · obtain ⟨m, hmm⟩ : ∃ m, m = p.natAbs := ⟨p.natAbs, rfl⟩
    have hm : valOfDigits (natDigits m) = m := valOfDigits_natDigits _
    have hub : m ≤ 2 ^ 63 := by omega
    rw [intDigits, if_pos hp, ← hmm]
    simp [atoi, natDigits_ne_nil, natDigits_all_digit, hm]
    omega
  · have habs : p.natAbs < 2 ^ 63 := by omega
    rw [intDigits, if_neg hp, atoi_natDigits habs]
    congr 1
    omega

/-! ### Splitting lemmas -/

theorem splitOnceSemi_none {l : List Char} (h : ';' ∉ l) : splitOnceSemi l = none := by
  induction l with
  | nil => rfl
  | cons c rest ih =>
    have hc : ¬ c = ';' := fun he => h (he ▸ List.mem_cons_self c rest)
    have hr : ';' ∉ rest := fun hm => h (List.mem_cons_of_mem c hm)
    simp [splitOnceSemi, hc, ih hr]

theorem splitOnceSemi_append {meta msg : List Char} (h : ';' ∉ meta) :
    splitOnceSemi (meta ++ ';' :: msg) = some (meta, msg) := by
  induction meta with
  | nil => simp [splitOnceSemi]
  | cons c rest ih =>
    have hc : ¬ c = ';' := fun he => h (he ▸ List.mem_cons_self c rest)
    have hr : ';' ∉ rest := fun hm => h (List.mem_cons_of_mem c hm)
    simp [splitOnceSemi, hc, ih hr]

theorem splitOn_no_sep {sep : Char} {a : List Char} (h : sep ∉ a) :
    splitOn sep a = [a] := by
  induction a with
  | nil => rfl
  | cons c rest ih =>
    have hc : ¬ c = sep := fun he => h (he ▸ List.mem_cons_self c rest)
    have hr : sep ∉ rest := fun hm => h (List.mem_cons_of_mem c hm)
    simp [splitOn, hc, ih hr]

theorem splitOn_append {sep : Char} {a rest : List Char} (h : sep ∉ a) :
    splitOn sep (a ++ sep :: rest) = a :: splitOn sep rest := by
  induction a with
  | nil => simp [splitOn]
  | cons c tl ih =>
    have hc : ¬ c = sep := fun he => h (he ▸ List.mem_cons_self c tl)
    have hr : sep ∉ tl := fun hm => h (List.mem_cons_of_mem c hm)
    simp only [List.cons_append, splitOn, if_neg hc]
    rw [show tl.append (sep :: rest) = tl ++ sep :: rest from rfl, ih hr]

/-! ### Character-class facts about rendered numbers -/

theorem mem_intDigits {p : Int} {c : Char} (h : c ∈ intDigits p) :
    isDigitChar c = true ∨ c = '-' := by
  rw [intDigits] at h
  by_cases hp : p < 0
  · rw [if_pos hp] at h
    rcases List.mem_cons.mp h with h1 | h2
    · exact Or.inr h1
    · exact Or.inl (mem_natDigits_digit h2)
  · rw [if_neg hp] at h
    exact Or.inl (mem_natDigits_digit h)

theorem not_mem_natDigits {c : Char} (hc : isDigitChar c = false) (n : Nat) :
    c ∉ natDigits n := fun h =>
  absurd (mem_natDigits_digit h) (by simp [hc])

theorem not_mem_intDigits {c : Char} (hc : isDigitChar c = false) (hm : c ≠ '-')
    (p : Int) : c ∉ intDigits p := fun h => by
  rcases mem_intDigits h with h1 | h2
  · rw [h1] at hc; exact absurd hc (by simp)
  · exact hm h2

theorem comma_not_mem_natDigits (n : Nat) : ',' ∉ natDigits n :=
  not_mem_natDigits (by decide) n

theorem semi_not_mem_natDigits (n : Nat) : ';' ∉ natDigits n :=
  not_mem_natDigits (by decide) n

theorem comma_not_mem_intDigits (p : Int) : ',' ∉ intDigits p :=
  not_mem_intDigits (by decide) (by decide) p

theorem semi_not_mem_intDigits (p : Int) : ';' ∉ intDigits p :=
  not_mem_intDigits (by decide) (by decide) p

theorem semi_not_mem_meta (p : Int) (seq ts : Nat) :
    ';' ∉ intDigits p ++ ',' :: (natDigits seq ++ ',' :: natDigits ts) := by
  intro h
  rcases List.mem_append.mp h with h1 | h2
  · exact semi_not_mem_intDigits p h1
  · rcases List.mem_cons.mp h2 with h3 | h4
    · exact absurd h3 (by decide)
    · rcases List.mem_append.mp h4 with h5 | h6
      · exact semi_not_mem_natDigits seq h5
      · rcases List.mem_cons.mp h6 with h7 | h8
        · exact absurd h7 (by decide)
        · exact semi_not_mem_natDigits ts h8

/-! ### Parser behaviour on well-formed and malformed lines -/

theorem parseKmsgLine_wellFormed (p : Int) (seq ts : Nat) (msg : List Char)
    (hp1 : -(2 ^ 63) ≤ p) (hp2 : p < 2 ^ 63) (hs : seq < 2 ^ 64) (ht : ts < 2 ^ 64) :
    parseKmsgLine
        (intDigits p ++ ',' :: (natDigits seq ++ ',' :: (natDigits ts ++ ';' :: msg)))
      = some ⟨p, seq, ts, msg⟩ := by
  have hline :
      intDigits p ++ ',' :: (natDigits seq ++ ',' :: (natDigits ts ++ ';' :: msg))
        = (intDigits p ++ ',' :: (natDigits seq ++ ',' :: natDigits ts)) ++ ';' :: msg := by
    simp [List.append_assoc]
  have hsplit : splitOn ',' (intDigits p ++ ',' :: (natDigits seq ++ ',' :: natDigits ts))
      = [intDigits p, natDigits seq, natDigits ts] := by
    rw [splitOn_append (comma_not_mem_intDigits p),
        splitOn_append (comma_not_mem_natDigits seq),
        splitOn_no_sep (comma_not_mem_natDigits ts)]
  rw [hline]
  simp only [parseKmsgLine, splitOnceSemi_append (semi_not_mem_meta p seq ts),
    Option.bind_eq_bind, Option.some_bind, hsplit]
  rw [dif_pos (by simp)]
  simp [hsplit, atoi_intDigits hp1 hp2, parseUint64_natDigits hs, parseUint64_natDigits ht,
    splitOn_no_sep (comma_not_mem_natDigits ts)]

theorem parseKmsgLine_no_semi {line : List Char} (h : ';' ∉ line) :
    parseKmsgLine line = none := by
  simp [parseKmsgLine, splitOnceSemi_none h]

theorem parseKmsgLine_few_fields {line meta msg : List Char}
    (h1 : splitOnceSemi line = some (meta, msg))
    (h2 : (splitOn ',' meta).length < 3) : parseKmsgLine line = none := by
  simp only [parseKmsgLine, h1, Option.bind_eq_bind, Option.some_bind]
  rw [dif_neg (by omega)]

theorem parseKmsgLine_flags (p : Int) (seq ts : Nat) (flags msg : List Char)
    (hp1 : -(2 ^ 63) ≤ p) (hp2 : p < 2 ^ 63) (hs : seq < 2 ^ 64) (ht : ts < 2 ^ 64)
    (hflags : ';' ∉ flags) :
    parseKmsgLine
        (intDigits p ++ ',' ::
          (natDigits seq ++ ',' :: (natDigits ts ++ ',' :: (flags ++ ';' :: msg))))
      = some ⟨p, seq, ts, msg⟩ := by
  have hmeta : ';' ∉ intDigits p ++ ',' ::
      (natDigits seq ++ ',' :: (natDigits ts ++ ',' :: flags)) := by
    intro h
    rcases List.mem_append.mp h with h1 | h2
    · exact semi_not_mem_intDigits p h1
    · rcases List.mem_cons.mp h2 with h3 | h4
      · exact absurd h3 (by decide)
      · rcases List.mem_append.mp h4 with h5 | h6
        · exact semi_not_mem_natDigits seq h5
        · rcases List.mem_cons.mp h6 with h7 | h8
          · exact absurd h7 (by decide)
          · rcases List.mem_append.mp h8 with h9 | h10
            · exact semi_not_mem_natDigits ts h9
            · rcases List.mem_cons.mp h10 with h11 | h12
              · exact absurd h11 (by decide)
              · exact hflags h12
  have hline :
      intDigits p ++ ',' ::
          (natDigits seq ++ ',' :: (natDigits ts ++ ',' :: (flags ++ ';' :: msg)))
        = (intDigits p ++ ',' ::
            (natDigits seq ++ ',' :: (natDigits ts ++ ',' :: flags))) ++ ';' :: msg := by
    simp [List.append_assoc]
  have hsplit : splitOn ','
        (intDigits p ++ ',' :: (natDigits seq ++ ',' :: (natDigits ts ++ ',' :: flags)))
      = intDigits p :: natDigits seq :: natDigits ts :: splitOn ',' flags := by
    rw [splitOn_append (comma_not_mem_intDigits p),
        splitOn_append (comma_not_mem_natDigits seq),
        splitOn_append (comma_not_mem_natDigits ts)]
  rw [hline]
  simp only [parseKmsgLine, splitOnceSemi_append hmeta,
    Option.bind_eq_bind, Option.some_bind, hsplit]
  rw [dif_pos (by simp only [List.length_cons]; omega)]
  simp [hsplit, atoi_intDigits hp1 hp2, parseUint64_natDigits hs, parseUint64_natDigits ht,
    splitOn_no_sep (comma_not_mem_natDigits ts)]

theorem parseKmsgLine_message {line meta msg : List Char} {e : KmsgEntry}
    (h1 : splitOnceSemi line = some (meta, msg))
    (h2 : parseKmsgLine line = some e) : e.message = msg := by
  simp only [parseKmsgLine, h1, Option.bind_eq_bind, Option.some_bind] at h2
  by_cases h3 : 3 ≤ (splitOn ',' meta).length
  case neg =>
    rw [dif_neg h3] at h2
    exact absurd h2 (by simp)
  case pos =>
    rw [dif_pos h3] at h2
    cases ha : atoi ((splitOn ',' meta).get ⟨0, by omega⟩) with
    | none => rw [ha] at h2; simp at h2
    | some pr =>
      rw [ha] at h2
      cases hb : parseUint64 ((splitOn ',' meta).get ⟨1, by omega⟩) with
      | none => rw [hb] at h2; simp at h2
      | some sq =>
        rw [hb] at h2
        cases hc : parseUint64 ((splitOn ',' ((splitOn ',' meta).get ⟨2, by omega⟩)).headD []) with
        | none => rw [hc] at h2; simp at h2
        | some t =>
          rw [hc] at h2
          simp at h2
          rw [← h2]

/-! ### Classifier lemmas -/

theorem containsSeq_iff (pat l : List Char) :
    containsSeq pat l = true ↔ ∃ a b, l = a ++ pat ++ b := by
  induction l with
  | nil =>
    simp only [containsSeq, List.isEmpty_iff]
    constructor
    · rintro rfl
      exact ⟨[], [], rfl⟩
    · rintro ⟨a, b, h⟩
      have hl := congrArg List.length h
      simp [List.length_append] at hl
      have : pat.length = 0 := by omega
      exact List.length_eq_zero.mp this
  | cons c rest ih =>
    simp only [containsSeq, Bool.or_eq_true, ih, List.isPrefixOf_iff_prefix]
    constructor
    · rintro (hpre | ⟨a, b, rfl⟩)
      · obtain ⟨t, ht⟩ := hpre
        exact ⟨[], t, by simp [← ht]⟩
      · exact ⟨c :: a, b, by simp⟩
    · rintro ⟨a, b, h⟩
      cases a with
      | nil =>
        left
        refine ⟨b, ?_⟩
        simpa using h.symm
      | cons a0 atl =>
        right
        simp only [List.cons_append, List.cons.injEq] at h
        exact ⟨atl, b, h.2⟩

theorem isOOMMessage_iff (msg : List Char) :
    isOOMMessage msg = true ↔ ∃ a b, msg.map lowerChar = a ++ oomPattern ++ b :=
  containsSeq_iff oomPattern (msg.map lowerChar)

theorem extractPID_no_match {msg : List Char}
    (h : findKilled none (msg.map lowerChar) = none) : extractPID msg = none := by
  simp [extractPID, h]

/-! ### LRU cache lemmas -/

theorem find?_filter_ne (pid k : Int) (l : List (Int × List Char)) (h : k ≠ pid) :
    List.find? (fun e => e.1 == pid) (l.filter (fun e => !(e.1 == k)))
      = List.find? (fun e => e.1 == pid) l := by
  induction l with
  | nil => rfl
  | cons x xs ih =>
    by_cases hx : x.1 = pid
    · have hpk : ¬ pid = k := fun hh => h hh.symm
      simp [List.filter_cons, List.find?_cons, hx, hpk]
    · have hx' : ((x.1 == pid) = false) := by simp [hx]
      by_cases hxk : x.1 = k
      · simp [List.filter_cons, hxk, ih]
        rw [List.find?_cons_of_neg _ (by simp [hx])]
      · simp only [List.filter_cons, show (!(x.1 == k)) = true by simp [hxk], if_pos]
        rw [List.find?_cons_of_neg _ (by simp [hx]), List.find?_cons_of_neg _ (by simp [hx]), ih]

theorem getLast_eq_of_append {α : Type} (init : List α) (x : α) (h : init ++ [x] ≠ []) :
    (init ++ [x]).getLast h = x := by
  simp [List.getLast_append]

theorem find?_lruAdd_ne {c : LRUCache} {k : Int} {v : List Char} {pid : Int}
    (h : k ≠ pid) :
    (lruAdd c k v).entries.find? (fun e => e.1 == pid)
        = c.entries.find? (fun e => e.1 == pid)
    ∨ (lruAdd c k v).entries.find? (fun e => e.1 == pid) = none := by
  rw [lruAdd]
  by_cases hany : c.entries.any (fun e => e.1 == k) = true
  · rw [if_pos hany]
    left
    simp only
    rw [List.find?_cons_of_neg _ (by simp [h]), find?_filter_ne pid k _ h]
  · rw [if_neg hany]
    simp only
    by_cases hcap : c.cap < ((k, v) :: c.entries).length
    · rw [if_pos hcap]
      have hne : (k, v) :: c.entries ≠ [] := by simp
      cases hfd : (((k, v) :: c.entries).dropLast).find? (fun e => e.1 == pid) with
      | none => exact Or.inr rfl
      | some x =>
        left
        have hsplit := List.dropLast_append_getLast hne
        have hthis : ((k, v) :: c.entries).find? (fun e => e.1 == pid) = some x := by
          rw [← hsplit, List.find?_append, hfd]
          rfl
        rw [List.find?_cons_of_neg _ (by simp [h])] at hthis
        exact hthis.symm
    · rw [if_neg hcap]
      left
      rw [List.find?_cons_of_neg _ (by simp [h])]

theorem find?_refresh_ne {procs : List (Int × List Char)} {c : LRUCache} {pid : Int}
    (h : ∀ q ∈ procs, q.1 ≠ pid) :
    (refresh c procs).entries.find? (fun e => e.1 == pid)
        = c.entries.find? (fun e => e.1 == pid)
    ∨ (refresh c procs).entries.find? (fun e => e.1 == pid) = none := by
  induction procs generalizing c with
  | nil => exact Or.inl rfl
  | cons q qs ih =>
    have hstep : refresh c (q :: qs) = refresh (lruAdd c q.1 q.2) qs := rfl
    rw [hstep]
    have h1 := find?_lruAdd_ne (c := c) (v := q.2) (h q (List.mem_cons_self q qs))
    rcases ih (c := lruAdd c q.1 q.2) (fun r hr => h r (List.mem_cons_of_mem q hr)) with h2 | h2
    · rcases h1 with h3 | h3
      · exact Or.inl (h2.trans h3)
      · exact Or.inr (h2.trans h3)
    · exact Or.inr h2

theorem getCommandLine_of_find? {c : LRUCache} {pid : Int} {e : Int × List Char}
    (h : c.entries.find? (fun x => x.1 == pid) = some e) :
    (getCommandLine c pid).2 = e.2 := by
  simp [getCommandLine, lruGet, h]

theorem getCommandLine_of_find?_none {c : LRUCache} {pid : Int}
    (h : c.entries.find? (fun x => x.1 == pid) = none) :
    (getCommandLine c pid).2 = [] := by
  simp [getCommandLine, lruGet, h]

theorem lruGet_promotes {c : LRUCache} {k : Int} {e : Int × List Char}
    (h : c.entries.find? (fun x => x.1 == k) = some e) :
    (lruGet c k).1.entries
      = (k, e.2) :: c.entries.filter (fun x => !(x.1 == k)) := by
  simp [lruGet, h]

theorem lruAdd_cap (c : LRUCache) (k : Int) (v : List Char) :
    (lruAdd c k v).cap = c.cap := by
  rw [lruAdd]
  split <;> rfl

theorem lruAdd_length_le (c : LRUCache) (k : Int) (v : List Char) :
    (lruAdd c k v).entries.length ≤ c.entries.length + 1 := by
  rw [lruAdd]
  split
  · simp only [List.length_cons]
    have := List.length_filter_le (fun e => !(e.1 == k)) c.entries
    omega
  · simp only
    split
    · have := List.length_dropLast ((k, v) :: c.entries)
      simp only [List.length_cons] at this
      omega
    · simp

theorem find?_lruAdd_ne_of_room {c : LRUCache} {k : Int} {v : List Char} {pid : Int}
    (hk : k ≠ pid) (hroom : c.entries.length < c.cap) :
    (lruAdd c k v).entries.find? (fun e => e.1 == pid)
      = c.entries.find? (fun e => e.1 == pid) := by
  rw [lruAdd]
  by_cases hany : c.entries.any (fun e => e.1 == k) = true
  · rw [if_pos hany]
    simp only
    rw [List.find?_cons_of_neg _ (by simp [hk]), find?_filter_ne pid k _ hk]
  · rw [if_neg hany]
    simp only
    rw [if_neg (by simp only [List.length_cons]; omega)]
    rw [List.find?_cons_of_neg _ (by simp [hk])]

theorem find?_refresh_of_room {procs : List (Int × List Char)} {c : LRUCache}
    {pid : Int} (habs : ∀ q ∈ procs, q.1 ≠ pid)
    (hroom : c.entries.length + procs.length ≤ c.cap) :
    (refresh c procs).entries.find? (fun e => e.1 == pid)
      = c.entries.find? (fun e => e.1 == pid) := by
  induction procs generalizing c with
  | nil => rfl
  | cons q qs ih =>
    have hstep : refresh c (q :: qs) = refresh (lruAdd c q.1 q.2) qs := rfl
    rw [hstep]
    have hq := habs q (List.mem_cons_self q qs)
    simp only [List.length_cons] at hroom
    have h1 : c.entries.length < c.cap := by omega
    have h2 := find?_lruAdd_ne_of_room (v := q.2) hq h1
    have h3 : (lruAdd c q.1 q.2).entries.length + qs.length ≤ (lruAdd c q.1 q.2).cap := by
      have := lruAdd_length_le c q.1 q.2
      rw [lruAdd_cap]
      omega
    rw [ih (fun r hr => habs r (List.mem_cons_of_mem q hr)) h3, h2]

theorem lruAdd_evicts_last (cap : Nat) (init : List (Int × List Char))
    (lst : Int × List Char) (k : Int) (v : List Char)
    (hlen : (init ++ [lst]).length = cap)
    (hnodup : ((init ++ [lst]).map Prod.fst).Nodup)
    (hk : k ∉ (init ++ [lst]).map Prod.fst) :
    (lruAdd ⟨cap, init ++ [lst]⟩ k v).entries = (k, v) :: init
    ∧ (getCommandLine (lruAdd ⟨cap, init ++ [lst]⟩ k v) lst.1).2 = [] := by
  have hany : ((init ++ [lst]).any (fun e => e.1 == k)) = false := by
    rw [List.any_eq_false]
    intro x hx
    simp only [beq_iff_eq]
    intro hxk
    exact hk (hxk ▸ List.mem_map_of_mem Prod.fst hx)
  have hentries : (lruAdd ⟨cap, init ++ [lst]⟩ k v).entries = (k, v) :: init := by
    rw [lruAdd]
    simp only [hany, Bool.false_eq_true, if_false, if_neg]
    rw [if_pos (by simp only [List.length_cons, hlen]; omega)]
    rw [show (k, v) :: (init ++ [lst]) = ((k, v) :: init) ++ [lst] from rfl,
      List.dropLast_concat]
  refine ⟨hentries, ?_⟩
  have hkeys : (init ++ [lst]).map Prod.fst = init.map Prod.fst ++ [lst.1] := by simp
  rw [hkeys] at hnodup hk
  have hdisj := List.nodup_append.mp hnodup
  have hlst_not_init : lst.1 ∉ init.map Prod.fst := by
    intro hm
    exact hdisj.2.2 hm (by simp)
  have hklst : ¬ k = lst.1 := by
    intro he
    exact hk (he ▸ List.mem_append_right _ (by simp))
  apply getCommandLine_of_find?_none
  rw [hentries, List.find?_eq_none]
  intro x hx
  simp only [beq_iff_eq]
  rcases List.mem_cons.mp hx with h1 | h2
  · rw [h1]
    simpa using hklst
  · intro hxe
    exact hlst_not_init (hxe ▸ List.mem_map_of_mem Prod.fst h2)

/-! ### Monitor arithmetic and detection-loop lemmas -/

theorem tdiv_natCast (m n : Nat) : ((m : Int)).tdiv (n : Int) = ((m / n : Nat) : Int) := rfl

theorem toInt64_small {n : Nat} (h : n < 2 ^ 63) : toInt64 n = (n : Int) := by
  have h64 : n % 2 ^ 64 = n := Nat.mod_eq_of_lt (by omega)
  rw [toInt64, h64, if_pos h]


theorem eventTimeMillis_btime (s ts : Nat) (h : ts * 1000 < 2 ^ 63) :
    eventTimeMillis ((s : Int) * 1000000000) ts
      = (s : Int) * 1000 + ((ts / 1000 : Nat) : Int) := by
  rw [eventTimeMillis, toInt64_small h]
  have hcast : (s : Int) * 1000000000 + ((ts * 1000 : Nat) : Int)
      = ((s * 1000000000 + ts * 1000 : Nat) : Int) := by push_cast; ring
  rw [hcast, show (1000000 : Int) = ((1000000 : Nat) : Int) from rfl, tdiv_natCast]
  have harith : (s * 1000000000 + ts * 1000) / 1000000 = s * 1000 + ts / 1000 := by
    have h1 : s * 1000000000 + ts * 1000 = ts * 1000 + 1000000 * (s * 1000) := by ring
    rw [h1, Nat.add_mul_div_left _ _ (by norm_num)]
    have h2 : ts * 1000 / 1000000 = ts / 1000 := by
      rw [show (1000000 : Nat) = 1000 * 1000 from rfl, ← Nat.div_div_eq_div_mul,
        Nat.mul_div_cancel _ (by norm_num)]
    rw [h2]
    omega
  rw [harith]
  push_cast
  ring

theorem processEntry_below {m : OOMMonitor} {c : LRUCache} {e : KmsgEntry}
    (h : e.timestamp < m.startupTimestamp) : processEntry m c e = (c, none) := by
  rw [processEntry]
  split <;> simp [h]

theorem processEntry_keeps {m : OOMMonitor} {c : LRUCache} {e : KmsgEntry} {pid : Int}
    (h1 : isOOMMessage e.message = true) (h2 : m.startupTimestamp ≤ e.timestamp)
    (h3 : extractPID e.message = some pid) :
    processEntry m c e
      = ((createOOMEvent m c pid e.timestamp).1,
         some (createOOMEvent m c pid e.timestamp).2) := by
  rw [processEntry, if_pos h1, if_neg (by omega), h3]

theorem processEntry_publishes {m : OOMMonitor} {c c' : LRUCache} {e : KmsgEntry}
    {ev : OOMEventData} (h : processEntry m c e = (c', some ev)) :
    isOOMMessage e.message = true ∧ m.startupTimestamp ≤ e.timestamp ∧
      ∃ pid, extractPID e.message = some pid
        ∧ ev = (createOOMEvent m c pid e.timestamp).2 := by
  by_cases h1 : isOOMMessage e.message = true
  · rw [processEntry, if_pos h1] at h
    by_cases h2 : e.timestamp < m.startupTimestamp
    · rw [if_pos h2] at h
      exact absurd (congrArg Prod.snd h) (by simp)
    · rw [if_neg h2] at h
      cases h3 : extractPID e.message with
      | none =>
        rw [h3] at h
        exact absurd (congrArg Prod.snd h) (by simp)
      | some pid =>
        rw [h3] at h
        have hev : some (createOOMEvent m c pid e.timestamp).2 = some ev :=
          congrArg Prod.snd h
        exact ⟨h1, by omega, pid, rfl, (Option.some.injEq _ _ ▸ hev).symm⟩
  · rw [processEntry, if_neg h1] at h
    exact absurd (congrArg Prod.snd h) (by simp)

theorem processEntries_below {m : OOMMonitor} {es : List KmsgEntry}
    (h : ∀ e ∈ es, e.timestamp < m.startupTimestamp) :
    ∀ c, processEntries m c es = (c, []) := by
  induction es with
  | nil => intro c; rfl
  | cons e es ih =>
    intro c
    have h1 : processEntry m c e = (c, none) :=
      processEntry_below (h e (List.mem_cons_self e es))
    have h2 := ih (fun x hx => h x (List.mem_cons_of_mem e hx)) c
    simp [processEntries, h1, h2]

theorem newOOMMonitor_some {stat : List Char} {s : Int} (h : getBootTime stat = some s)
    (nowNanos : Int) (host kern : List Char) :
    (newOOMMonitor stat nowNanos host kern).bootTimeNanos = s * 1000000000 := by
  simp [newOOMMonitor, h]

theorem newOOMMonitor_baseline {stat : List Char} {s : Int}
    (h : getBootTime stat = some s) {nowNanos : Int}
    (hle : s * 1000000000 ≤ nowNanos)
    (hlt : nowNanos - s * 1000000000 < 2 ^ 64 * 1000) (host kern : List Char) :
    ((newOOMMonitor stat nowNanos host kern).startupTimestamp : Int)
      = (nowNanos - s * 1000000000).tdiv 1000 := by
  simp only [newOOMMonitor, h]
  have hd0 : 0 ≤ nowNanos - s * 1000000000 := by omega
  have htd : (nowNanos - s * 1000000000).tdiv 1000 = (nowNanos - s * 1000000000) / 1000 :=
    Int.tdiv_eq_ediv hd0 (by norm_num)
  have h1 : 0 ≤ (nowNanos - s * 1000000000).tdiv 1000 := by
    rw [htd]
    exact Int.ediv_nonneg hd0 (by norm_num)
  have h2 : (nowNanos - s * 1000000000).tdiv 1000 < 2 ^ 64 := by
    rw [htd]
    exact Int.ediv_lt_of_lt_mul (by norm_num) hlt
  rw [Int.emod_eq_of_lt h1 h2, Int.toNat_of_nonneg h1]

theorem newOOMMonitor_fallback {stat : List Char} (h : getBootTime stat = none)
    (nowNanos : Int) (host kern : List Char) :
    (newOOMMonitor stat nowNanos host kern).bootTimeNanos = nowNanos
    ∧ (newOOMMonitor stat nowNanos host kern).startupTimestamp = 0 := by
  simp [newOOMMonitor, h, Int.zero_tdiv]

/-! ### The claims -/

/-- Claim C1: for every detected, post-baseline OOM entry, the published
event's time field equals the discovered boot time expressed as Unix epoch
milliseconds (`s * 1000` for a boot time of `s` epoch seconds) plus the
entry's kernel timestamp converted from microseconds to milliseconds by
integer division by 1000. -/
theorem c1_event_time_conversion (stat : List Char) (nowNanos : Int)
    (host kern : List Char) (s : Int) (c c' : LRUCache) (e : KmsgEntry)
    (ev : OOMEventData) (hboot : getBootTime stat = some s) (hs : 0 ≤ s)
    (hts : e.timestamp * 1000 < 2 ^ 63)
    (hrun : processEntry (newOOMMonitor stat nowNanos host kern) c e = (c', some ev)) :
    ev.time = s * 1000 + ((e.timestamp / 1000 : Nat) : Int) := by
  obtain ⟨h1, h2, pid, h3, hev⟩ := processEntry_publishes hrun
  obtain ⟨sn, rfl⟩ : ∃ sn : Nat, s = (sn : Int) := ⟨s.toNat, (Int.toNat_of_nonneg hs).symm⟩
  rw [hev]
  have hb := newOOMMonitor_some hboot nowNanos host kern
  simp [createOOMEvent, hb, eventTimeMillis_btime sn e.timestamp hts]

/-- Witness for C1: the section-8 scenario, with boot time 1700000000 epoch
seconds, a baseline 1000 microseconds before the entry, and timestamp
987654321; the published time is `1700000000 * 1000 + 987654321 / 1000`. -/
theorem c1_event_time_conversion_witness :
    ({ cmdline := "python3 train.py".toList, pid := "4321".toList, hostname := [],
       kernel := [], time := 1700000987654 } : OOMEventData).time
      = (1700000000 : Int) * 1000 + ((987654321 / 1000 : Nat) : Int) :=
  c1_event_time_conversion ("btime 1700000000".toList)
    (1700000000 * 1000000000 + 987653321 * 1000) [] [] 1700000000
    ⟨32768, [(4321, "python3 train.py".toList)]⟩
    ⟨32768, [(4321, "python3 train.py".toList)]⟩
    ⟨3, 551, 987654321, "Out of memory: Killed process 4321 (python3)".toList⟩
    { cmdline := "python3 train.py".toList, pid := "4321".toList, hostname := [],
      kernel := [], time := 1700000987654 }
    (by decide) (by decide) (by decide) (by decide)

/-- Claim C2: at construction the startup baseline is the elapsed monotonic
microseconds between the discovered boot time and construction time
(`(now - bootTime) / 1000` nanosecond-to-microsecond truncated division);
when boot-time discovery fails the boot time falls back to "now", the
baseline becomes 0, and construction still succeeds. -/
theorem c2_boot_time_baseline (stat : List Char) (nowNanos : Int)
    (host kern : List Char) :
    (∀ s : Int, getBootTime stat = some s →
        (newOOMMonitor stat nowNanos host kern).bootTimeNanos = s * 1000000000
        ∧ (s * 1000000000 ≤ nowNanos → nowNanos - s * 1000000000 < 2 ^ 64 * 1000 →
            ((newOOMMonitor stat nowNanos host kern).startupTimestamp : Int)
              = (nowNanos - s * 1000000000).tdiv 1000))
    ∧ (getBootTime stat = none →
        (newOOMMonitor stat nowNanos host kern).bootTimeNanos = nowNanos
        ∧ (newOOMMonitor stat nowNanos host kern).startupTimestamp = 0) := by
  constructor
  · intro s hb
    exact ⟨newOOMMonitor_some hb nowNanos host kern,
      fun hle hlt => newOOMMonitor_baseline hb hle hlt host kern⟩
  · intro hb
    exact newOOMMonitor_fallback hb nowNanos host kern

/-- Witness for C2: one second after a discovered boot time of 1700000000
epoch seconds, the baseline equals the truncated microsecond difference. -/
theorem c2_boot_time_baseline_witness :
    ((newOOMMonitor ("btime 1700000000".toList) 1700000001000000000 [] []).startupTimestamp : Int)
      = ((1700000001000000000 : Int) - 1700000000 * 1000000000).tdiv 1000 :=
  ((c2_boot_time_baseline ("btime 1700000000".toList) 1700000001000000000 [] []).1
    1700000000 (by decide)).2 (by decide) (by decide)

/-- Claim C3: for every OOM-classified entry and baseline `B`, the loop
drops the entry when its timestamp is strictly below `B` and keeps it (the
event is published) when its timestamp is at least `B`; no event below the
baseline is ever published, and a batch entirely below the baseline
publishes nothing. -/
theorem c3_baseline_filtering :
    (∀ (m : OOMMonitor) (c : LRUCache) (e : KmsgEntry),
        isOOMMessage e.message = true → e.timestamp < m.startupTimestamp →
        processEntry m c e = (c, none))
    ∧ (∀ (m : OOMMonitor) (c : LRUCache) (e : KmsgEntry) (pid : Int),
        isOOMMessage e.message = true → m.startupTimestamp ≤ e.timestamp →
        extractPID e.message = some pid →
        (processEntry m c e).2 = some (createOOMEvent m c pid e.timestamp).2)
    ∧ (∀ (m : OOMMonitor) (c c' : LRUCache) (e : KmsgEntry) (ev : OOMEventData),
        processEntry m c e = (c', some ev) → m.startupTimestamp ≤ e.timestamp)
    ∧ (∀ (m : OOMMonitor) (c : LRUCache) (es : List KmsgEntry),
        (∀ e ∈ es, e.timestamp < m.startupTimestamp) →
        (processEntries m c es).2 = []) := by
  refine ⟨?_, ?_, ?_, ?_⟩
  · intro m c e _ h
    exact processEntry_below h
  · intro m c e pid h1 h2 h3
    rw [processEntry_keeps h1 h2 h3]
  · intro m c c' e ev h
    exact (processEntry_publishes h).2.1
  · intro m c es h
    rw [processEntries_below h c]

/-- Witness for C3: with baseline 1000, a timestamp-999 OOM entry is
dropped, timestamp-1000 and timestamp-1001 entries are published. -/
theorem c3_baseline_filtering_witness :
    processEntry ⟨1000, 0, [], []⟩ ⟨4, []⟩
        ⟨3, 1, 999, "Out of memory: Killed process 10 (x)".toList⟩ = (⟨4, []⟩, none)
    ∧ (processEntry ⟨1000, 0, [], []⟩ ⟨4, []⟩
        ⟨3, 1, 1000, "Out of memory: Killed process 10 (x)".toList⟩).2
        = some (createOOMEvent ⟨1000, 0, [], []⟩ ⟨4, []⟩ 10 1000).2
    ∧ (processEntry ⟨1000, 0, [], []⟩ ⟨4, []⟩
        ⟨3, 1, 1001, "Out of memory: Killed process 10 (x)".toList⟩).2
        = some (createOOMEvent ⟨1000, 0, [], []⟩ ⟨4, []⟩ 10 1001).2 :=
  ⟨c3_baseline_filtering.1 _ _ _ (by decide) (by decide),
   c3_baseline_filtering.2.1 _ _ _ 10 (by decide) (by decide) (by decide),
   c3_baseline_filtering.2.1 _ _ _ 10 (by decide) (by decide) (by decide)⟩

/-- Claim C4: every well-formed line `"<p>,<seq>,<ts>;<msg>"` (with `p` a
64-bit base-10 integer and `seq`, `ts` unsigned 64-bit decimals) parses to
exactly that entry; every line without `;`, and every line with fewer than
three comma-separated fields before the first `;`, fails to parse. -/
theorem c4_parser_round_trip :
    (∀ (p : Int) (seq ts : Nat) (msg : List Char),
        -(2 ^ 63) ≤ p → p < 2 ^ 63 → seq < 2 ^ 64 → ts < 2 ^ 64 →
        parseKmsgLine
            (intDigits p ++ ',' :: (natDigits seq ++ ',' :: (natDigits ts ++ ';' :: msg)))
          = some ⟨p, seq, ts, msg⟩)
    ∧ (∀ line : List Char, ';' ∉ line → parseKmsgLine line = none)
    ∧ (∀ line meta msg : List Char, splitOnceSemi line = some (meta, msg) →
        (splitOn ',' meta).length < 3 → parseKmsgLine line = none) :=
  ⟨fun p seq ts msg h1 h2 h3 h4 => parseKmsgLine_wellFormed p seq ts msg h1 h2 h3 h4,
   fun _ h => parseKmsgLine_no_semi h,
   fun _ _ _ h1 h2 => parseKmsgLine_few_fields h1 h2⟩

/-- Witness for C4: round-trip at `p = -3`, `seq = 551`, `ts = 987654321`,
and failure of a semicolon-free line. -/
theorem c4_parser_round_trip_witness :
    parseKmsgLine
        (intDigits (-3) ++ ',' :: (natDigits 551 ++ ',' :: (natDigits 987654321 ++ ';' :: "hi".toList)))
      = some ⟨-3, 551, 987654321, "hi".toList⟩
    ∧ parseKmsgLine ("3,4,5 no separator".toList) = none :=
  ⟨c4_parser_round_trip.1 (-3) 551 987654321 ("hi".toList)
      (by decide) (by decide) (by decide) (by decide),
   c4_parser_round_trip.2.1 _ (by decide)⟩

/-- Claim C5: trailing comma-separated flag segments after the timestamp
field are ignored (only the portion before any further comma is parsed as
the unsigned 64-bit timestamp), and the message is everything after the
first `;`, unmodified, including any embedded `;`. -/
theorem c5_timestamp_flags_message :
    (∀ (p : Int) (seq ts : Nat) (flags msg : List Char),
        -(2 ^ 63) ≤ p → p < 2 ^ 63 → seq < 2 ^ 64 → ts < 2 ^ 64 → ';' ∉ flags →
        parseKmsgLine
            (intDigits p ++ ',' ::
              (natDigits seq ++ ',' :: (natDigits ts ++ ',' :: (flags ++ ';' :: msg))))
          = some ⟨p, seq, ts, msg⟩)
    ∧ (∀ (line meta msg : List Char) (e : KmsgEntry),
        splitOnceSemi line = some (meta, msg) →
        parseKmsgLine line = some e → e.message = msg) :=
  ⟨fun p seq ts flags msg h1 h2 h3 h4 h5 =>
      parseKmsgLine_flags p seq ts flags msg h1 h2 h3 h4 h5,
   fun _ _ _ _ h1 h2 => parseKmsgLine_message h1 h2⟩

/-- Witness for C5: a line with a `-` flag segment after the timestamp and
an embedded `;` in the message parses to timestamp 987654321 and keeps the
message intact. -/
theorem c5_timestamp_flags_message_witness :
    parseKmsgLine
        (intDigits 3 ++ ',' ::
          (natDigits 551 ++ ',' :: (natDigits 987654321 ++ ',' :: ("-".toList ++ ';' :: "a;b".toList))))
      = some ⟨3, 551, 987654321, "a;b".toList⟩ :=
  c5_timestamp_flags_message.1 3 551 987654321 ("-".toList) ("a;b".toList)
    (by decide) (by decide) (by decide) (by decide) (by decide)

/-- Claim C6: the classifier accepts a message exactly when its lower-cased
form contains `"out of memory:"` (unanchored); PID extraction works on the
lower-cased message via the first whole-word `killed process <digits>`
match, so both section-8 case variants classify as OOM kills and yield PID
1234; extraction fails with no match or with digits that overflow. -/
theorem c6_classifier_case_insensitive :
    (∀ msg : List Char, isOOMMessage msg = true ↔
        ∃ a b, msg.map lowerChar = a ++ oomPattern ++ b)
    ∧ isOOMMessage ("Out Of Memory: killed process 1234 (foo)".toList) = true
    ∧ isOOMMessage ("OUT OF MEMORY: Killed Process 1234 (foo)".toList) = true
    ∧ extractPID ("Out Of Memory: killed process 1234 (foo)".toList) = some 1234
    ∧ extractPID ("OUT OF MEMORY: Killed Process 1234 (foo)".toList) = some 1234
    ∧ (∀ msg : List Char, findKilled none (msg.map lowerChar) = none →
        extractPID msg = none)
    ∧ extractPID ("out of memory: killed process 99999999999999999999 (foo)".toList)
        = none := by
  refine ⟨isOOMMessage_iff, by decide, by decide, by decide, by decide,
    fun _ h => extractPID_no_match h, by decide⟩

/-- Witness for C6: the substring characterisation at a concrete message,
and extraction failure on a message with no `killed process` match. -/
theorem c6_classifier_case_insensitive_witness :
    (isOOMMessage ("xx Out of Memory: yy".toList) = true ↔
      ∃ a b, ("xx Out of Memory: yy".toList).map lowerChar = a ++ oomPattern ++ b)
    ∧ extractPID ("nothing to see".toList) = none :=
  ⟨c6_classifier_case_insensitive.1 _,
   c6_classifier_case_insensitive.2.2.2.2.2.1 _ (by decide)⟩

/-- Claim C7: inserting a fresh PID into a full cache (distinct cached
PIDs, at capacity) evicts the least-recently-used entry first, and a
lookup of the evicted PID then returns the empty string. -/
theorem c7_lru_eviction (cap : Nat) (entries : List (Int × List Char))
    (hne : entries ≠ []) (k : Int) (v : List Char)
    (hlen : entries.length = cap) (hnodup : (entries.map Prod.fst).Nodup)
    (hk : k ∉ entries.map Prod.fst) :
    (lruAdd ⟨cap, entries⟩ k v).entries = (k, v) :: entries.dropLast
    ∧ (getCommandLine (lruAdd ⟨cap, entries⟩ k v) ((entries.getLast hne).1)).2 = [] := by
  obtain ⟨init, lst, hsplit⟩ : ∃ init lst, entries = init ++ [lst] :=
    ⟨entries.dropLast, entries.getLast hne, (List.dropLast_append_getLast hne).symm⟩
  subst hsplit
  have h := lruAdd_evicts_last cap init lst k v hlen hnodup hk
  constructor
  · rw [h.1, List.dropLast_concat]
  · rw [getLast_eq_of_append init lst hne]
    exact h.2

/-- Witness for C7: adding PID 3 to the full two-entry cache evicts the
least-recently-used PID 2, whose lookup then returns empty. -/
theorem c7_lru_eviction_witness :
    (lruAdd ⟨2, [(1, "a".toList), (2, "b".toList)]⟩ 3 ("c".toList)).entries
        = (3, "c".toList) :: ([(1, "a".toList), (2, "b".toList)] : List (Int × List Char)).dropLast
    ∧ (getCommandLine (lruAdd ⟨2, [(1, "a".toList), (2, "b".toList)]⟩ 3 ("c".toList))
        ((([(1, "a".toList), (2, "b".toList)] : List (Int × List Char)).getLast (by simp)).1)).2
        = [] :=
  c7_lru_eviction 2 [(1, "a".toList), (2, "b".toList)] (by simp) 3 ("c".toList)
    (by decide) (by decide) (by decide)

/-- Claim C8: a refresh sweep only inserts or overwrites entries and never
deletes any: a single `Add` of a different PID into a cache with spare
capacity leaves a cached PID's binding untouched; a whole sweep that fits
within the capacity leaves the stale PID resolving to its last known
command line; and in general a stale PID either still resolves to its last
known command line or the sweep overflowed the capacity (capacity
pressure) — a refresh deletes an entry for no other reason. -/
theorem c8_stale_entry_preserved :
    (∀ (c : LRUCache) (k : Int) (v : List Char) (pid : Int) (e : Int × List Char),
        k ≠ pid → c.entries.length < c.cap →
        c.entries.find? (fun x => x.1 == pid) = some e →
        (lruAdd c k v).entries.find? (fun x => x.1 == pid) = some e)
    ∧ (∀ (procs : List (Int × List Char)) (c : LRUCache) (pid : Int)
          (e : Int × List Char),
        (∀ q ∈ procs, q.1 ≠ pid) →
        c.entries.length + procs.length ≤ c.cap →
        c.entries.find? (fun x => x.1 == pid) = some e →
        (refresh c procs).entries.find? (fun x => x.1 == pid) = some e
        ∧ (getCommandLine (refresh c procs) pid).2 = e.2)
    ∧ (∀ (procs : List (Int × List Char)) (c : LRUCache) (pid : Int)
          (e : Int × List Char),
        (∀ q ∈ procs, q.1 ≠ pid) →
        c.entries.find? (fun x => x.1 == pid) = some e →
        ((refresh c procs).entries.find? (fun x => x.1 == pid) = some e
          ∧ (getCommandLine (refresh c procs) pid).2 = e.2)
        ∨ ((refresh c procs).entries.find? (fun x => x.1 == pid) = none
          ∧ c.cap < c.entries.length + procs.length)) := by
  refine ⟨?_, ?_, ?_⟩
  · intro c k v pid e hk hroom hc
    rw [find?_lruAdd_ne_of_room hk hroom, hc]
  · intro procs c pid e habs hroom hc
    have h := (find?_refresh_of_room habs hroom).trans hc
    exact ⟨h, getCommandLine_of_find? h⟩
  · intro procs c pid e habs hc
    by_cases hroom : c.entries.length + procs.length ≤ c.cap
    · left
      have h := (find?_refresh_of_room habs hroom).trans hc
      exact ⟨h, getCommandLine_of_find? h⟩
    · rcases find?_refresh_ne habs with h | h
      · left
        have h' := h.trans hc
        exact ⟨h', getCommandLine_of_find? h'⟩
      · right
        exact ⟨h, by omega⟩

/-- Witness for C8: PID 7, absent from a scan that inserts PID 5 into a
cache with spare capacity, is still found and still resolves to its old
command line — the strong preserved conclusion, not a disjunction. -/
theorem c8_stale_entry_preserved_witness :
    (refresh ⟨3, [(7, "y".toList)]⟩ [(5, "x".toList)]).entries.find?
        (fun x => x.1 == 7) = some (7, "y".toList)
    ∧ (getCommandLine (refresh ⟨3, [(7, "y".toList)]⟩ [(5, "x".toList)]) 7).2
        = (7, "y".toList).2 :=
  c8_stale_entry_preserved.2.1 [(5, "x".toList)] ⟨3, [(7, "y".toList)]⟩ 7
    (7, "y".toList) (by decide) (by decide) (by decide)

/-- Claim C9: when the cache lookup for an OOM event's PID returns empty,
event construction still succeeds and publishes an event whose cmdline is
the literal placeholder naming the unknown PID. -/
theorem c9_unknown_process_fallback (m : OOMMonitor) (c : LRUCache) (e : KmsgEntry)
    (pid : Int) (h1 : isOOMMessage e.message = true)
    (h2 : m.startupTimestamp ≤ e.timestamp) (h3 : extractPID e.message = some pid)
    (h4 : (getCommandLine c pid).2 = []) :
    (processEntry m c e).2 = some (createOOMEvent m c pid e.timestamp).2
    ∧ (createOOMEvent m c pid e.timestamp).2.cmdline
        = "<unknown process ".toList ++ intDigits pid ++ ">".toList := by
  constructor
  · rw [processEntry_keeps h1 h2 h3]
  · simp [createOOMEvent, getCommandLine] at h4 ⊢
    simp [h4]

/-- Witness for C9: the section-8 unknown-process scenario with an empty
cache publishes an event with the placeholder for PID 4321. -/
theorem c9_unknown_process_fallback_witness :
    (processEntry ⟨0, 0, [], []⟩ ⟨4, []⟩
        ⟨3, 551, 987654321, "Out of memory: Killed process 4321 (python3)".toList⟩).2
        = some (createOOMEvent ⟨0, 0, [], []⟩ ⟨4, []⟩ 4321 987654321).2
    ∧ (createOOMEvent ⟨0, 0, [], []⟩ ⟨4, []⟩ 4321 987654321).2.cmdline
        = "<unknown process ".toList ++ intDigits 4321 ++ ">".toList :=
  c9_unknown_process_fallback ⟨0, 0, [], []⟩ ⟨4, []⟩
    ⟨3, 551, 987654321, "Out of memory: Killed process 4321 (python3)".toList⟩ 4321
    (by decide) (by decide) (by decide) (by decide)

/-- Claim C10: a cache lookup is not a pure read: a hit moves the looked-up
PID to most-recently-used, so a lookup changes which entry a later
over-capacity insertion evicts (adding PID 3 to the full cache evicts
PID 2 without a prior lookup of 2, but evicts PID 1 after one). -/
theorem c10_lookup_recency_side_effect :
    (∀ (c : LRUCache) (k : Int) (e : Int × List Char),
        c.entries.find? (fun x => x.1 == k) = some e →
        (lruGet c k).1.entries = (k, e.2) :: c.entries.filter (fun x => !(x.1 == k)))
    ∧ (getCommandLine (lruAdd (⟨2, [(1, "a".toList), (2, "b".toList)]⟩ : LRUCache)
        3 ("c".toList)) 2).2 = []
    ∧ (getCommandLine (lruAdd
        (getCommandLine (⟨2, [(1, "a".toList), (2, "b".toList)]⟩ : LRUCache) 2).1
        3 ("c".toList)) 2).2 = "b".toList
    ∧ (getCommandLine (lruAdd
        (getCommandLine (⟨2, [(1, "a".toList), (2, "b".toList)]⟩ : LRUCache) 2).1
        3 ("c".toList)) 1).2 = [] :=
  ⟨fun _ _ _ h => lruGet_promotes h, by decide, by decide, by decide⟩

/-- Witness for C10: looking up PID 2 in the two-entry cache moves it to
the front. -/
theorem c10_lookup_recency_side_effect_witness :
    (lruGet (⟨2, [(1, "a".toList), (2, "b".toList)]⟩ : LRUCache) 2).1.entries
      = (2, "b".toList) ::
          ([(1, "a".toList), (2, "b".toList)] : List (Int × List Char)).filter
            (fun x => !(x.1 == 2)) :=
  c10_lookup_recency_side_effect.1 _ 2 (2, "b".toList) (by decide)

end OOMNotifier
